import Mathlib

/-!
Shallow embedding of the BRUH image codec (src/main.rs).

Modelling conventions:
* Machine bytes are natural numbers; real byte streams have every entry < 256.
* A Pixel is an RGB triple of bytes, a Run pairs a run length with a color,
  matching the pairs of run length (as u8) and last_color pushed by
  png_to_bruh.
* The Rust decoder bruh_to_png returns a Result but never constructs an error
  value; every failure mode in the function is a runtime crash (slice indexing
  on a file shorter than 8 bytes, slice indexing on a truncated record, and
  Vec indexing decoded_data at a position past the end of the buffer).
  Crashes are modelled as Except.error applied to BruhError.crash.
* The buffer allocation size, width times height cast to usize in the source,
  is a u32 multiplication: in a release build the product wraps modulo 2^32
  (modelled here by the mod), while a debug build crashes on the overflowing
  multiplication itself.  Either way the decoder crashes on such inputs,
  which the theorems below track.
* u32 to_ne_bytes and from_ne_bytes use one consistent native byte order,
  modelled as little-endian.  The round-trip facts proved below do not depend
  on that choice because both directions use the same order.
* File IO, the skia rasterizer and the egui viewer are out of scope: the model
  stops at the decoded pixel buffer and at the byte list handed to the file
  writer.
-/

namespace Bruh

/-- Pixel: an RGB triple of byte values. -/
abbrev Pixel := Nat × Nat × Nat

/-- Run: a run length paired with one pixel color. -/
abbrev Run := Nat × Pixel

/-- Kinds of runtime crash (Rust panic) of the program. -/
inductive CrashKind where
  | indexOutOfBounds
deriving DecidableEq

/-- Modelled from the spec: section 7 names the error kinds FormatError and
OutOfBoundsError for the container reader and the decoder.  The source code
of `bruh_to_png` never constructs either of them; its only failure mode is a
runtime crash, modelled by the `crash` constructor. -/
inductive BruhError where
  | formatError
  | outOfBounds
  | crash (k : CrashKind)
deriving DecidableEq

/-! ## Run-length encoder (src/main.rs lines 28-47) -/

/-- Mutable state of the encoding loop in `png_to_bruh`:
`last_color`, `run_length` and the `encoded_data` vector. -/
structure EncState where
  last_color : Pixel
  run_length : Nat
  encoded_data : List Run

/-- One iteration of the `for pixel in img.pixels()` loop of `png_to_bruh`. -/
def encStep (s : EncState) (p : Pixel) : EncState :=
  if p = s.last_color ∧ s.run_length < 255 then
    { s with run_length := s.run_length + 1 }
  else
    { last_color := p, run_length := 1,
      encoded_data :=
        s.encoded_data ++ if s.run_length > 0 then [(s.run_length, s.last_color)] else [] }

/-- The flush after the loop: `if run_length > 0 { encoded_data.push(...) }`. -/
def encFinish (s : EncState) : List Run :=
  s.encoded_data ++ if s.run_length > 0 then [(s.run_length, s.last_color)] else []

/-- The run list produced by `png_to_bruh` from the row-major pixel sequence:
initial state has `last_color = [0, 0, 0]`, `run_length = 0`, empty data. -/
def png_to_bruh_runs (pixels : List Pixel) : List Run :=
  encFinish (pixels.foldl encStep ⟨(0, 0, 0), 0, []⟩)

/-! ## Container writer (src/main.rs lines 49-74) -/

/-- `u32::to_ne_bytes`, native order modelled as little-endian. -/
def u32_to_ne_bytes (n : Nat) : List Nat :=
  [n % 256, n / 256 % 256, n / 65536 % 256, n / 16777216 % 256]

/-- The record-writing loop: each run is written as one length byte followed
by the three color bytes. -/
def serializeRuns : List Run → List Nat
  | [] => []
  | (l, r, g, b) :: rest => l :: r :: g :: b :: serializeRuns rest

/-- All bytes written to the output file by `png_to_bruh` for a grid of the
given dimensions: width bytes, height bytes, then the records. -/
def png_to_bruh_bytes (w h : Nat) (pixels : List Pixel) : List Nat :=
  u32_to_ne_bytes w ++ u32_to_ne_bytes h ++ serializeRuns (png_to_bruh_runs pixels)

/-- Model of path_str.replace on line 55, pattern ".png", replacement ".bruh": a left-to-right scan
replacing every non-overlapping occurrence of ".png" by ".bruh". -/
def path_to_bruh : List Char → List Char
  | [] => []
  | [a] => [a]
  | [a, b] => [a, b]
  | [a, b, c] => [a, b, c]
  | a :: b :: c :: d :: rest =>
    if a = '.' ∧ b = 'p' ∧ c = 'n' ∧ d = 'g' then
      '.' :: 'b' :: 'r' :: 'u' :: 'h' :: path_to_bruh rest
    else
      a :: path_to_bruh (b :: c :: d :: rest)

/-- Observable outcome of one call of `png_to_bruh`: which file (path and
bytes) was written, whether the fallback message was printed, and whether the
function returned `Ok`.  IO failures of the OS are out of scope. -/
structure EncodeOutcome where
  written : Option (List Char × List Nat)
  printedNotFound : Bool
  resultOk : Bool

/-- Model of png_to_bruh (src/main.rs lines 25-80) at the IO level.  `pathStr` is
`path.to_str()`: `none` when the OS path is not valid UTF-8, in which case the
function only prints and returns `Ok(())` without writing anything. -/
def png_to_bruh (pathStr : Option (List Char)) (w h : Nat) (pixels : List Pixel) :
    EncodeOutcome :=
  match pathStr with
  | some s => ⟨some (path_to_bruh s, png_to_bruh_bytes w h pixels), false, true⟩
  | none => ⟨none, true, true⟩

/-! ## Container reader and run-length decoder (src/main.rs lines 82-101) -/

/-- Model of vec_to_u32_ne (lines 19-23); both call sites pass exactly 4 bytes. -/
def vec_to_u32_ne (bytes : List Nat) : Nat :=
  bytes.getD 0 0 + 256 * bytes.getD 1 0 + 65536 * bytes.getD 2 0 +
    16777216 * bytes.getD 3 0

/-- The inner loop `for _ in 0..run_length` of `bruh_to_png`: writes the color
into `run_length` consecutive slots.  `decoded_data[pos] = color` is a
bounds-checked `Vec` write, so a position past the end is a crash, never a
write outside the buffer. -/
def writeRun : List Pixel → Nat → Nat → Pixel → Except BruhError (List Pixel × Nat)
  | buf, pos, 0, _ => .ok (buf, pos)
  | buf, pos, n + 1, c =>
    if pos < buf.length then writeRun (buf.set pos c) (pos + 1) n c
    else .error (.crash .indexOutOfBounds)

/-- The `while idx < contents.len()` loop of `bruh_to_png`, with the bytes
from offset `idx` on passed as a list.  Reading `contents[idx + 1 ..= idx + 3]`
of a truncated record is a slice-indexing crash. -/
def decodeLoop : List Nat → List Pixel → Nat → Except BruhError (List Pixel)
  | [], buf, _ => .ok buf
  | [_], _, _ | [_, _], _, _ | [_, _, _], _, _ => .error (.crash .indexOutOfBounds)
  | l :: r :: g :: b :: rest, buf, pos =>
    match writeRun buf pos l (r, g, b) with
    | .error e => .error e
    | .ok (buf2, pos2) => decodeLoop rest buf2 pos2

/-- Model of bruh_to_png (lines 82-101) up to the decoded pixel buffer.  A file
shorter than 8 bytes makes `&contents[0..4]` or `&contents[4..8]` crash.  The
buffer is pre-allocated as `vec![[0, 0, 0]; (width * height) as usize]`; the
`u32` product wraps modulo 2^32. -/
def bruh_to_png (contents : List Nat) : Except BruhError (Nat × Nat × List Pixel) :=
  if contents.length < 8 then .error (.crash .indexOutOfBounds)
  else
    let width := vec_to_u32_ne (contents.take 4)
    let height := vec_to_u32_ne ((contents.drop 4).take 4)
    match decodeLoop (contents.drop 8) (List.replicate (width * height % 4294967296) (0, 0, 0)) 0 with
    | .error e => .error e
    | .ok buf => .ok (width, height, buf)

/-! ## Derived notions used to state the claims -/

/-- Expansion of a run list into the pixel sequence it denotes. -/
def expandRuns : List Run → List Pixel
  | [] => []
  | (l, c) :: rest => List.replicate l c ++ expandRuns rest

/-- Sum of the run lengths of a run list. -/
def sumLens : List Run → Nat
  | [] => 0
  | (l, _) :: rest => l + sumLens rest

/-- Pixels represented by an encoder state: the expansion of the emitted runs
followed by the pending run. -/
def encDenote (s : EncState) : List Pixel :=
  expandRuns s.encoded_data ++ List.replicate s.run_length s.last_color

/-- Adjacency relation of claim C9: consecutive runs have different colors or
the earlier one is full. -/
def runsAdjOk (x y : Run) : Prop := x.2 ≠ y.2 ∨ x.1 = 255

/-- Invariant maintained by the encoding loop. -/
def encInv (s : EncState) : Prop :=
  s.run_length ≤ 255 ∧
  List.Chain' runsAdjOk s.encoded_data ∧
  (s.run_length = 0 → s.encoded_data = []) ∧
  (∀ last ∈ s.encoded_data.getLast?, 0 < s.run_length → runsAdjOk last (s.run_length, s.last_color))

/-- Whether a character list contains ".png" as a contiguous substring
(the pattern searched by `str::replace`). -/
def containsDotPng : List Char → Bool
  | a :: b :: c :: d :: rest =>
    if a = '.' ∧ b = 'p' ∧ c = 'n' ∧ d = 'g' then true
    else containsDotPng (b :: c :: d :: rest)
  | _ => false


lemma writeRun_eq (n : Nat) : ∀ (buf : List Pixel) (pos : Nat) (c : Pixel), pos + n ≤ buf.length →
    writeRun buf pos n c =
      .ok (buf.take pos ++ List.replicate n c ++ buf.drop (pos + n), pos + n) := by
  induction n with
  | zero =>
    intro buf pos c h
    simp [writeRun, List.take_append_drop]
  | succ n ih =>
    intro buf pos c h
    have hpos : pos < buf.length := by omega
    rw [writeRun, if_pos hpos, ih (buf.set pos c) (pos + 1) c (by simp; omega)]
    have h1 : pos + 1 + n = pos + (n + 1) := by omega
    rw [h1]
    congr 2
    rw [List.set_eq_take_cons_drop c hpos]
    rw [List.take_append_eq_append_take, List.drop_append_eq_append_drop]
    have hlt : (buf.take pos).length = pos := by simp; omega
    rw [hlt]
    have h2 : (buf.take pos).take (pos + 1) = buf.take pos := by
      rw [List.take_take]; congr 1; omega
    have h3 : (buf.take pos).drop (pos + (n + 1)) = [] :=
      List.drop_eq_nil_of_le (by omega)
    rw [h2, h3]
    have h4 : pos + 1 - pos = 1 := by omega
    have h5 : pos + (n + 1) - pos = n + 1 := by omega
    rw [h4, h5]
    simp [List.drop_drop, List.replicate_succ]
    congr 1

lemma length_expandRuns : ∀ rs : List Run, (expandRuns rs).length = sumLens rs
  | [] => rfl
  | (l, c) :: rest => by simp [expandRuns, sumLens, length_expandRuns rest]

lemma decodeLoop_serialize : ∀ (runs : List Run) (buf : List Pixel) (pos : Nat),
    pos + sumLens runs ≤ buf.length →
    decodeLoop (serializeRuns runs) buf pos =
      .ok (buf.take pos ++ expandRuns runs ++ buf.drop (pos + sumLens runs)) := by
  intro runs
  induction runs with
  | nil =>
    intro buf pos h
    simp [serializeRuns, decodeLoop, expandRuns, sumLens, List.take_append_drop]
  | cons run rest ih =>
    obtain ⟨l, c⟩ := run
    intro buf pos h
    have hsum : sumLens ((l, c) :: rest) = l + sumLens rest := rfl
    rw [hsum] at h
    have hw : writeRun buf pos l (c.1, c.2.1, c.2.2) =
        .ok (buf.take pos ++ List.replicate l c ++ buf.drop (pos + l), pos + l) := by
      rw [writeRun_eq l buf pos c (by omega)]
    have hlen : (buf.take pos ++ List.replicate l c ++ buf.drop (pos + l)).length = buf.length := by
      simp
      omega
    rw [show serializeRuns ((l, c) :: rest) = l :: c.1 :: c.2.1 :: c.2.2 :: serializeRuns rest from rfl]
    rw [decodeLoop, hw]
    show decodeLoop (serializeRuns rest) _ (pos + l) = _
    rw [ih _ (pos + l) (by rw [hlen]; omega)]
    have h1 : (buf.take pos).length = pos := by simp; omega
    have h2 : (List.replicate l c).length = l := by simp
    have htake : (buf.take pos ++ List.replicate l c ++ buf.drop (pos + l)).take (pos + l) =
        buf.take pos ++ List.replicate l c := by
      rw [List.append_assoc, List.take_append_eq_append_take, h1]
      have hx : (buf.take pos).take (pos + l) = buf.take pos := by
        rw [List.take_take]; congr 1; omega
      rw [hx]
      rw [List.take_append_eq_append_take, h2]
      have hy : (List.replicate l c).take (pos + l - pos) = List.replicate l c := by
        rw [List.take_replicate]; congr 1; omega
      rw [hy]
      have hz : pos + l - pos - l = 0 := by omega
      rw [hz]
      simp
    have hdrop : (buf.take pos ++ List.replicate l c ++ buf.drop (pos + l)).drop (pos + l + sumLens rest) =
        buf.drop (pos + (l + sumLens rest)) := by
      have d1 : (buf.take pos).drop (pos + l + sumLens rest) = [] :=
        List.drop_eq_nil_of_le (by omega)
      have d2 : (List.replicate l c).drop (pos + l + sumLens rest - pos) = [] :=
        List.drop_eq_nil_of_le (by simp; omega)
      rw [List.append_assoc, List.drop_append_eq_append_drop, h1, d1]
      rw [List.drop_append_eq_append_drop, h2, d2]
      simp [List.drop_drop]
      congr 1
      omega
    rw [htake, hdrop]
    rw [show expandRuns ((l, c) :: rest) = List.replicate l c ++ expandRuns rest from rfl]
    rw [show sumLens ((l, c) :: rest) = l + sumLens rest from rfl]
    simp [List.append_assoc]


lemma length_u32_to_ne_bytes (n : Nat) : (u32_to_ne_bytes n).length = 4 := rfl

lemma vec_to_u32_ne_round (n : Nat) (h : n < 4294967296) :
    vec_to_u32_ne (u32_to_ne_bytes n) = n := by
  simp [vec_to_u32_ne, u32_to_ne_bytes, List.getD]
  omega

lemma length_serializeRuns : ∀ rs : List Run, (serializeRuns rs).length = 4 * rs.length
  | [] => rfl
  | (l, r, g, b) :: rest => by
    simp [serializeRuns, length_serializeRuns rest]
    omega

/-- Header parsing: a byte list that starts with two serialized u32 values is
decoded by reading them back and looping over the rest. -/
lemma bruh_to_png_header (w h : Nat) (rest : List Nat)
    (hw : w < 4294967296) (hh : h < 4294967296) :
    bruh_to_png (u32_to_ne_bytes w ++ u32_to_ne_bytes h ++ rest) =
      match decodeLoop rest (List.replicate (w * h % 4294967296) (0, 0, 0)) 0 with
      | .error e => .error e
      | .ok buf => .ok (w, h, buf) := by
  have hlen : (u32_to_ne_bytes w ++ u32_to_ne_bytes h ++ rest).length = 8 + rest.length := by
    simp [u32_to_ne_bytes]
    omega
  have htake4 : (u32_to_ne_bytes w ++ u32_to_ne_bytes h ++ rest).take 4 = u32_to_ne_bytes w := by
    rw [List.append_assoc, List.take_append_eq_append_take, length_u32_to_ne_bytes]
    simp [u32_to_ne_bytes]
  have hdrop4 : (u32_to_ne_bytes w ++ u32_to_ne_bytes h ++ rest).drop 4 = u32_to_ne_bytes h ++ rest := by
    rw [List.append_assoc, List.drop_append_eq_append_drop, length_u32_to_ne_bytes]
    simp [u32_to_ne_bytes]
  have htake4b : (u32_to_ne_bytes h ++ rest).take 4 = u32_to_ne_bytes h := by
    rw [List.take_append_eq_append_take, length_u32_to_ne_bytes]
    simp [u32_to_ne_bytes]
  have hdrop8 : (u32_to_ne_bytes w ++ u32_to_ne_bytes h ++ rest).drop 8 = rest := by
    rw [List.append_assoc, List.drop_append_eq_append_drop, length_u32_to_ne_bytes]
    simp [u32_to_ne_bytes]
  rw [bruh_to_png, if_neg (by omega)]
  rw [htake4, hdrop4, htake4b, hdrop8]
  rw [vec_to_u32_ne_round w hw, vec_to_u32_ne_round h hh]

/-- Decoding a container built from dimensions below 2^32 and a run list whose
total length fits the buffer. -/
lemma bruh_to_png_serialized (w h : Nat) (runs : List Run)
    (hw : w < 4294967296) (hh : h < 4294967296) (hwh : w * h < 4294967296)
    (hsum : sumLens runs ≤ w * h) :
    bruh_to_png (u32_to_ne_bytes w ++ u32_to_ne_bytes h ++ serializeRuns runs) =
      .ok (w, h, expandRuns runs ++ List.replicate (w * h - sumLens runs) (0, 0, 0)) := by
  rw [bruh_to_png_header w h _ hw hh]
  have hmod : w * h % 4294967296 = w * h := Nat.mod_eq_of_lt hwh
  rw [hmod]
  have hbuf : (0 : Nat) + sumLens runs ≤ (List.replicate (w * h) ((0, 0, 0) : Pixel)).length := by
    simp
    omega
  rw [decodeLoop_serialize runs _ 0 hbuf]
  simp [List.drop_replicate]



lemma expandRuns_append : ∀ a b : List Run, expandRuns (a ++ b) = expandRuns a ++ expandRuns b
  | [], b => rfl
  | (l, c) :: rest, b => by
    simp [expandRuns, expandRuns_append rest b]

lemma encDenote_step (s : EncState) (p : Pixel) : encDenote (encStep s p) = encDenote s ++ [p] := by
  unfold encStep encDenote
  by_cases hc : p = s.last_color ∧ s.run_length < 255
  · rw [if_pos hc]
    simp [List.replicate_succ' s.run_length]
    rw [hc.1]
  · rw [if_neg hc]
    by_cases hr : s.run_length > 0
    · simp [hr, expandRuns_append, expandRuns, List.replicate_succ, List.append_assoc]
    · have h0 : s.run_length = 0 := by omega
      simp [h0, expandRuns_append, expandRuns, List.replicate_succ]

lemma encDenote_foldl : ∀ (l : List Pixel) (s : EncState),
    encDenote (l.foldl encStep s) = encDenote s ++ l
  | [], s => by simp
  | p :: rest, s => by
    rw [List.foldl_cons, encDenote_foldl rest (encStep s p), encDenote_step]
    simp

lemma expandRuns_encFinish (s : EncState) : expandRuns (encFinish s) = encDenote s := by
  unfold encFinish encDenote
  by_cases hr : s.run_length > 0
  · simp [hr, expandRuns_append, expandRuns]
  · have h0 : s.run_length = 0 := by omega
    simp [h0, expandRuns_append, expandRuns]

/-- The encoder of png_to_bruh is lossless: expanding its runs gives back the
pixel sequence, for every grid. -/
lemma expand_png_to_bruh_runs (pixels : List Pixel) :
    expandRuns (png_to_bruh_runs pixels) = pixels := by
  unfold png_to_bruh_runs
  rw [expandRuns_encFinish, encDenote_foldl]
  simp [encDenote, expandRuns]

lemma sumLens_png_to_bruh_runs (pixels : List Pixel) :
    sumLens (png_to_bruh_runs pixels) = pixels.length := by
  rw [← length_expandRuns, expand_png_to_bruh_runs]


lemma sumLens_append : ∀ a b : List Run, sumLens (a ++ b) = sumLens a + sumLens b
  | [], b => by simp [sumLens]
  | (l, c) :: rest, b => by
    simp [sumLens, sumLens_append rest b]
    omega

lemma sumLens_replicate : ∀ (k : Nat) (rc : Run), sumLens (List.replicate k rc) = k * rc.1
  | 0, rc => by simp [sumLens]
  | k + 1, rc => by
    simp [List.replicate_succ, sumLens, sumLens_replicate k rc]
    ring

/-- Feeding n more copies of the current color into the encoder, starting with
a pending run of length r of that color. -/
lemma encode_replicate_aux : ∀ (n : Nat) (c : Pixel) (r : Nat) (acc : List Run), 1 ≤ r → r ≤ 255 →
    encFinish (List.foldl encStep ⟨c, r, acc⟩ (List.replicate n c)) =
      acc ++ List.replicate ((r + n - 1) / 255) (255, c) ++ [(1 + (r + n - 1) % 255, c)] := by
  intro n
  induction n with
  | zero =>
    intro c r acc h1 h255
    have e1 : (r + 0 - 1) / 255 = 0 := Nat.div_eq_of_lt (by omega)
    have e2 : 1 + (r + 0 - 1) % 255 = r := by
      rw [Nat.mod_eq_of_lt (by omega)]
      omega
    rw [e1, e2]
    simp [encFinish]
    omega
  | succ n ih =>
    intro c r acc h1 h255
    rw [List.replicate_succ, List.foldl_cons]
    by_cases hr : r < 255
    · have hstep : encStep ⟨c, r, acc⟩ c = ⟨c, r + 1, acc⟩ := by
        unfold encStep
        rw [if_pos ⟨rfl, hr⟩]
      rw [hstep, ih c (r + 1) acc (by omega) (by omega)]
      have e1 : r + 1 + n - 1 = r + (n + 1) - 1 := by omega
      rw [e1]
    · have hr255 : r = 255 := by omega
      subst hr255
      have hstep : encStep ⟨c, 255, acc⟩ c = ⟨c, 1, acc ++ [(255, c)]⟩ := by
        unfold encStep
        rw [if_neg (by rintro ⟨h1x, h2x⟩; simp at h2x)]
        simp
      rw [hstep, ih c 1 (acc ++ [(255, c)]) (by omega) (by omega)]
      have e1 : (1 + n - 1) = n := by omega
      have e2 : 255 + (n + 1) - 1 = n + 255 := by omega
      rw [e1, e2, Nat.add_div_right n (by omega), Nat.add_mod_right n 255]
      rw [List.replicate_succ]
      simp [List.append_assoc]

/-- Closed form of the encoder on a single-color grid of N at least 1 pixels. -/
lemma png_to_bruh_runs_replicate (N : Nat) (c : Pixel) (hN : 1 ≤ N) :
    png_to_bruh_runs (List.replicate N c) =
      List.replicate ((N - 1) / 255) (255, c) ++ [(1 + (N - 1) % 255, c)] := by
  unfold png_to_bruh_runs
  obtain ⟨m, rfl⟩ : ∃ m, N = m + 1 := ⟨N - 1, by omega⟩
  rw [List.replicate_succ, List.foldl_cons]
  have hstep : encStep ⟨(0, 0, 0), 0, []⟩ c = ⟨c, 1, []⟩ := by
    unfold encStep
    by_cases hc : c = ((0, 0, 0) : Pixel) ∧ (0 : Nat) < 255
    · rw [if_pos hc]
      rw [hc.1]
    · rw [if_neg hc]
      simp
  rw [hstep, encode_replicate_aux m c 1 [] (by omega) (by omega)]
  have e1 : 1 + m - 1 = m + 1 - 1 := by omega
  rw [e1]
  simp

/-- writeRun fails only by crashing on an out-of-range index. -/
lemma writeRun_error : ∀ (n : Nat) (buf : List Pixel) (pos : Nat) (c : Pixel) (e : BruhError),
    writeRun buf pos n c = .error e → e = .crash .indexOutOfBounds := by
  intro n
  induction n with
  | zero =>
    intro buf pos c e h
    simp [writeRun] at h
  | succ n ih =>
    intro buf pos c e h
    rw [writeRun] at h
    by_cases hp : pos < buf.length
    · rw [if_pos hp] at h
      exact ih _ _ _ _ h
    · rw [if_neg hp] at h
      exact (Except.error.injEq _ _).mp h.symm ▸ rfl

/-- A record region whose byte count is not a multiple of 4 always crashes the
decode loop (either on a truncated record read or earlier on a buffer write). -/
lemma decodeLoop_not_mult4 : ∀ (rest : List Nat) (buf : List Pixel) (pos : Nat),
    rest.length % 4 ≠ 0 → decodeLoop rest buf pos = .error (.crash .indexOutOfBounds)
  | [], _, _, h => absurd rfl h
  | [_], _, _, _ => rfl
  | [_, _], _, _, _ => rfl
  | [_, _, _], _, _, _ => rfl
  | l :: r :: g :: b :: rest, buf, pos, h => by
    rw [decodeLoop]
    cases hw : writeRun buf pos l (r, g, b) with
    | error e =>
      rw [writeRun_error l buf pos (r, g, b) e hw]
    | ok p =>
      obtain ⟨buf2, pos2⟩ := p
      exact decodeLoop_not_mult4 rest buf2 pos2 (by simp at h ⊢; omega)


/-- If the stem contains no ".png" occurrence, the replacement rewrites only
the final extension. -/
lemma path_to_bruh_ext : ∀ stem : List Char, containsDotPng stem = false →
    path_to_bruh (stem ++ ['.', 'p', 'n', 'g']) = stem ++ ['.', 'b', 'r', 'u', 'h']
  | [], _ => rfl
  | [a], _ => by
    have hneg : ¬(a = '.' ∧ ('.' : Char) = 'p' ∧ ('p' : Char) = 'n' ∧ ('n' : Char) = 'g') := by
      rintro ⟨_, h2, _⟩
      exact absurd h2 (by decide)
    show path_to_bruh (a :: '.' :: 'p' :: 'n' :: 'g' :: []) = a :: '.' :: 'b' :: 'r' :: 'u' :: 'h' :: []
    rw [path_to_bruh, if_neg hneg]
    rfl
  | [a, b], _ => by
    have hneg : ¬(a = '.' ∧ b = 'p' ∧ ('.' : Char) = 'n' ∧ ('p' : Char) = 'g') := by
      rintro ⟨_, _, h3, _⟩
      exact absurd h3 (by decide)
    show path_to_bruh (a :: b :: '.' :: 'p' :: 'n' :: 'g' :: []) =
      a :: b :: '.' :: 'b' :: 'r' :: 'u' :: 'h' :: []
    rw [path_to_bruh, if_neg hneg]
    have := path_to_bruh_ext [b] rfl
    simp at this
    rw [show (b :: '.' :: 'p' :: 'n' :: 'g' :: [] : List Char) = [b] ++ ['.', 'p', 'n', 'g'] from rfl]
    rw [path_to_bruh_ext [b] rfl]
    rfl
  | [a, b, c], _ => by
    have hneg : ¬(a = '.' ∧ b = 'p' ∧ c = 'n' ∧ ('.' : Char) = 'g') := by
      rintro ⟨_, _, _, h4⟩
      exact absurd h4 (by decide)
    show path_to_bruh (a :: b :: c :: '.' :: 'p' :: 'n' :: 'g' :: []) =
      a :: b :: c :: '.' :: 'b' :: 'r' :: 'u' :: 'h' :: []
    rw [path_to_bruh, if_neg hneg]
    rw [show (b :: c :: '.' :: 'p' :: 'n' :: 'g' :: [] : List Char) = [b, c] ++ ['.', 'p', 'n', 'g'] from rfl]
    rw [path_to_bruh_ext [b, c] rfl]
    rfl
  | a :: b :: c :: d :: t, h => by
    have hcond : ¬(a = '.' ∧ b = 'p' ∧ c = 'n' ∧ d = 'g') := by
      intro hc
      rw [containsDotPng, if_pos hc] at h
      exact absurd h (by simp)
    have htail : containsDotPng (b :: c :: d :: t) = false := by
      rw [containsDotPng, if_neg hcond] at h
      exact h
    show path_to_bruh (a :: b :: c :: d :: (t ++ ['.', 'p', 'n', 'g'])) = _
    rw [path_to_bruh, if_neg hcond]
    rw [show (b :: c :: d :: (t ++ ['.', 'p', 'n', 'g'])) = (b :: c :: d :: t) ++ ['.', 'p', 'n', 'g'] from rfl]
    rw [path_to_bruh_ext (b :: c :: d :: t) htail]
    rfl



lemma encInv_step (s : EncState) (p : Pixel) (h : encInv s) : encInv (encStep s p) := by
  obtain ⟨lc, rl, acc⟩ := s
  obtain ⟨hbound, hchain, hzero, hlink⟩ := h
  dsimp only at hbound hchain hzero hlink
  unfold encStep
  dsimp only
  by_cases hc : p = lc ∧ rl < 255
  · rw [if_pos hc]
    unfold encInv
    dsimp only
    refine ⟨by omega, hchain, by intro h0; omega, ?_⟩
    intro last hlast _
    by_cases hr : 0 < rl
    · have hl := hlink last hlast hr
      unfold runsAdjOk at hl ⊢
      dsimp only at hl ⊢
      tauto
    · have h0 : rl = 0 := by omega
      rw [hzero h0] at hlast
      simp at hlast
  · rw [if_neg hc]
    unfold encInv
    dsimp only
    by_cases hr : rl > 0
    · rw [if_pos hr]
      refine ⟨by omega, ?_, fun h0 => absurd h0 (by omega), ?_⟩
      · rw [List.chain'_append]
        refine ⟨hchain, List.chain'_singleton _, ?_⟩
        intro x hx y hy
        simp at hy
        rw [← hy]
        exact hlink x hx hr
      · intro last hlast _
        rw [List.getLast?_concat] at hlast
        simp at hlast
        rw [← hlast]
        unfold runsAdjOk
        dsimp only
        by_cases hp : p = lc
        · have h255 : rl = 255 := by
            have hnl : ¬ rl < 255 := fun hlt => hc ⟨hp, hlt⟩
            omega
          right
          exact h255
        · left
          intro hq
          exact hp hq.symm
    · rw [if_neg hr]
      have h0 : rl = 0 := by omega
      rw [hzero h0]
      refine ⟨by omega, by simp, fun _ => by simp, ?_⟩
      intro last hlast
      simp at hlast

lemma encInv_foldl : ∀ (l : List Pixel) (s : EncState), encInv s → encInv (l.foldl encStep s)
  | [], _, h => h
  | p :: rest, s, h => encInv_foldl rest (encStep s p) (encInv_step s p h)

lemma chain_encFinish (s : EncState) (h : encInv s) : List.Chain' runsAdjOk (encFinish s) := by
  obtain ⟨lc, rl, acc⟩ := s
  obtain ⟨hbound, hchain, hzero, hlink⟩ := h
  dsimp only at hbound hchain hzero hlink
  unfold encFinish
  dsimp only
  by_cases hr : rl > 0
  · rw [if_pos hr]
    rw [List.chain'_append]
    refine ⟨hchain, List.chain'_singleton _, ?_⟩
    intro x hx y hy
    simp at hy
    rw [← hy]
    exact hlink x hx hr
  · rw [if_neg hr]
    simpa using hchain


/-- Claim C1, amended round trip: decoding the encoding reproduces every grid
whose dimensions are u32 values with a product below 2^32. -/
theorem c1_round_trip (w h : Nat) (pixels : List Pixel)
    (hlen : pixels.length = w * h) (hw : w < 4294967296) (hh : h < 4294967296)
    (hwh : w * h < 4294967296) :
    bruh_to_png (png_to_bruh_bytes w h pixels) = .ok (w, h, pixels) := by
  unfold png_to_bruh_bytes
  rw [bruh_to_png_serialized w h _ hw hh hwh (by rw [sumLens_png_to_bruh_runs, hlen])]
  rw [expand_png_to_bruh_runs, sumLens_png_to_bruh_runs, hlen]
  simp

/-- Witness for c1_round_trip at a concrete 1 x 1 grid. -/
theorem c1_round_trip_witness :
    ([((5, 6, 7) : Pixel)]).length = 1 * 1 ∧
    bruh_to_png (png_to_bruh_bytes 1 1 [(5, 6, 7)]) = .ok (1, 1, [(5, 6, 7)]) :=
  ⟨by decide, c1_round_trip 1 1 [(5, 6, 7)] (by decide) (by decide) (by decide) (by decide)⟩

/-- Claim C2: an encoded stream whose run lengths sum past width * height makes
the decoder crash on the bounds-checked Vec write (never writing outside the
buffer), instead of returning the OutOfBoundsError the spec requires. -/
theorem c2_overflow_crash_eval :
    1 * 1 < sumLens [(2, ((9 : Nat), (9 : Nat), (9 : Nat)))] ∧
    bruh_to_png (u32_to_ne_bytes 1 ++ u32_to_ne_bytes 1 ++ serializeRuns [(2, (9, 9, 9))]) =
      .error (.crash .indexOutOfBounds) :=
  ⟨by simp [sumLens], rfl⟩

/-- Claim C3 as stated is refuted by the empty file: the reader crashes with an
index-out-of-bounds panic; it does not return a FormatError. -/
theorem c3_counterexample :
    bruh_to_png [] = .error (.crash .indexOutOfBounds) ∧
    BruhError.crash .indexOutOfBounds ≠ BruhError.formatError :=
  ⟨rfl, by decide⟩

/-- Claim C3, amended: a file shorter than 8 bytes, or whose byte count after
the header is not a multiple of 4, makes the reader crash (an
index-out-of-bounds panic); it never returns a FormatError.  The third spec
condition is vacuous: u32 width/height always represent a non-negative count. -/
theorem c3_short_or_ragged_crashes (contents : List Nat)
    (h : contents.length < 8 ∨ (contents.length - 8) % 4 ≠ 0) :
    bruh_to_png contents = .error (.crash .indexOutOfBounds) := by
  rcases h with h | h
  · rw [bruh_to_png, if_pos h]
  · have h8 : ¬ contents.length < 8 := by omega
    rw [bruh_to_png, if_neg h8]
    dsimp only
    rw [decodeLoop_not_mult4 (contents.drop 8) _ 0 (by simp; omega)]

/-- Witness for c3_short_or_ragged_crashes at the empty file. -/
theorem c3_short_or_ragged_crashes_witness :
    (([] : List Nat).length < 8 ∨ (([] : List Nat).length - 8) % 4 ≠ 0) ∧
    bruh_to_png [] = .error (.crash .indexOutOfBounds) :=
  ⟨by decide, c3_short_or_ragged_crashes [] (by decide)⟩

/-- Claim C4: on a single-color grid of N at least 256 pixels the encoder
emits exactly the ceiling of N / 255 runs, each of length 1..255, summing to
N, as full runs of 255 followed by the remainder. -/
theorem c4_run_cap (N : Nat) (c : Pixel) (hN : 256 ≤ N) :
    (png_to_bruh_runs (List.replicate N c)).length = (N + 254) / 255 ∧
    (∀ run ∈ png_to_bruh_runs (List.replicate N c), 1 ≤ run.1 ∧ run.1 ≤ 255) ∧
    sumLens (png_to_bruh_runs (List.replicate N c)) = N ∧
    png_to_bruh_runs (List.replicate N c) =
      List.replicate ((N - 1) / 255) (255, c) ++ [(1 + (N - 1) % 255, c)] := by
  have hcf := png_to_bruh_runs_replicate N c (by omega)
  refine ⟨?_, ?_, ?_, hcf⟩
  · rw [hcf]
    simp
    omega
  · rw [hcf]
    intro run hrun
    rcases List.mem_append.mp hrun with hm | hm
    · have heq := List.eq_of_mem_replicate hm
      rw [heq]
      exact ⟨by omega, by omega⟩
    · simp at hm
      rw [hm]
      refine ⟨by omega, ?_⟩
      have hlt : (N - 1) % 255 < 255 := Nat.mod_lt _ (by omega)
      omega
  · rw [hcf, sumLens_append, sumLens_replicate]
    simp [sumLens]
    omega

/-- Witness for c4_run_cap at a 300-pixel single-color grid. -/
theorem c4_run_cap_witness :
    256 ≤ 300 ∧
    ((png_to_bruh_runs (List.replicate 300 ((1, 2, 3) : Pixel))).length = (300 + 254) / 255 ∧
      (∀ run ∈ png_to_bruh_runs (List.replicate 300 ((1, 2, 3) : Pixel)),
        1 ≤ run.1 ∧ run.1 ≤ 255) ∧
      sumLens (png_to_bruh_runs (List.replicate 300 ((1, 2, 3) : Pixel))) = 300 ∧
      png_to_bruh_runs (List.replicate 300 ((1, 2, 3) : Pixel)) =
        List.replicate ((300 - 1) / 255) (255, (1, 2, 3)) ++ [(1 + (300 - 1) % 255, (1, 2, 3))]) :=
  ⟨by omega, c4_run_cap 300 (1, 2, 3) (by omega)⟩

/-- Claim C5 as stated is refuted by a 65536 x 65536 header with one length-1
record: the summed run lengths are far below width * height, yet decoding
crashes because the u32 product wraps to a zero-sized buffer. -/
theorem c5_counterexample :
    sumLens [(1, ((5 : Nat), (5 : Nat), (5 : Nat)))] < 65536 * 65536 ∧
    bruh_to_png (u32_to_ne_bytes 65536 ++ u32_to_ne_bytes 65536 ++ serializeRuns [(1, (5, 5, 5))]) =
      .error (.crash .indexOutOfBounds) :=
  ⟨by norm_num [sumLens], rfl⟩

/-- Claim C5, amended with width * height < 2^32: a stream whose summed run
lengths fall short of width * height decodes successfully, the first slots
hold the expanded run colors and the trailing slots keep the default black. -/
theorem c5_partial_fill (w h : Nat) (runs : List Run)
    (hw : w < 4294967296) (hh : h < 4294967296) (hwh : w * h < 4294967296)
    (hsum : sumLens runs < w * h) :
    bruh_to_png (u32_to_ne_bytes w ++ u32_to_ne_bytes h ++ serializeRuns runs) =
      .ok (w, h, expandRuns runs ++ List.replicate (w * h - sumLens runs) (0, 0, 0)) :=
  bruh_to_png_serialized w h runs hw hh hwh (by omega)

/-- Witness for c5_partial_fill: a 2 x 2 header with a single length-2 run. -/
theorem c5_partial_fill_witness :
    sumLens [(2, ((7 : Nat), (8 : Nat), (9 : Nat)))] < 2 * 2 ∧
    bruh_to_png (u32_to_ne_bytes 2 ++ u32_to_ne_bytes 2 ++ serializeRuns [(2, (7, 8, 9))]) =
      .ok (2, 2, expandRuns [(2, (7, 8, 9))] ++
        List.replicate (2 * 2 - sumLens [(2, (7, 8, 9))]) (0, 0, 0)) :=
  ⟨by decide, c5_partial_fill 2 2 [(2, (7, 8, 9))] (by decide) (by decide) (by decide) (by decide)⟩

/-- Claim C6: the container writer emits exactly 8 + 4 * (number of runs)
bytes: the two 4-byte dimensions and one 4-byte record per run. -/
theorem c6_container_size (w h : Nat) (pixels : List Pixel) :
    (png_to_bruh_bytes w h pixels).length = 8 + 4 * (png_to_bruh_runs pixels).length := by
  unfold png_to_bruh_bytes
  simp [length_serializeRuns, u32_to_ne_bytes]
  omega

/-- Claim C7 as stated is refuted by the path "a.png.png": the code rewrites
every occurrence of ".png", not only the extension. -/
theorem c7_counterexample :
    (png_to_bruh (some ("a.png.png".toList)) 1 1 [(0, 0, 0)]).written =
      some ("a.bruh.bruh".toList, png_to_bruh_bytes 1 1 [(0, 0, 0)]) ∧
    "a.bruh.bruh".toList ≠ "a.png.bruh".toList :=
  ⟨rfl, by decide⟩

/-- Claim C7, amended: when ".png" occurs nowhere in the rest of the path, the
encoder writes to the sibling path with only the extension replaced. -/
theorem c7_sibling_path (stem : List Char) (w h : Nat) (pixels : List Pixel)
    (hstem : containsDotPng stem = false) :
    (png_to_bruh (some (stem ++ ['.', 'p', 'n', 'g'])) w h pixels).written =
      some (stem ++ ['.', 'b', 'r', 'u', 'h'], png_to_bruh_bytes w h pixels) := by
  unfold png_to_bruh
  dsimp only
  rw [path_to_bruh_ext stem hstem]

/-- Witness for c7_sibling_path at the path "img.png". -/
theorem c7_sibling_path_witness :
    containsDotPng ['i', 'm', 'g'] = false ∧
    (png_to_bruh (some (['i', 'm', 'g'] ++ ['.', 'p', 'n', 'g'])) 0 0 []).written =
      some (['i', 'm', 'g'] ++ ['.', 'b', 'r', 'u', 'h'], png_to_bruh_bytes 0 0 []) :=
  ⟨rfl, c7_sibling_path ['i', 'm', 'g'] 0 0 [] rfl⟩

/-- Claim C8: the encoder is total; the 0 x 0 grid yields an empty run list
and an 8-byte file (header only), and on every grid the emitted runs expand
back to the full pixel sequence. -/
theorem c8_encode_total :
    png_to_bruh_runs ([] : List Pixel) = [] ∧
    png_to_bruh_bytes 0 0 [] = u32_to_ne_bytes 0 ++ u32_to_ne_bytes 0 ∧
    (png_to_bruh_bytes 0 0 []).length = 8 ∧
    ∀ pixels : List Pixel, expandRuns (png_to_bruh_runs pixels) = pixels :=
  ⟨rfl, rfl, rfl, expand_png_to_bruh_runs⟩

/-- Claim C9: in every encoded stream the encoder emits, two consecutive runs
either differ in color or the earlier one has length exactly 255. -/
theorem c9_no_mergeable_runs (pixels : List Pixel) :
    List.Chain' runsAdjOk (png_to_bruh_runs pixels) := by
  have hinv : encInv ⟨(0, 0, 0), 0, []⟩ := by
    refine ⟨by simp, by simp, fun _ => rfl, ?_⟩
    intro last hlast
    simp at hlast
  exact chain_encFinish _ (encInv_foldl pixels _ hinv)

/-- Claim C10: with a non-UTF-8 input path the encoder writes nothing, prints
the fallback message, and still returns Ok. -/
theorem c10_non_utf8_path (w h : Nat) (pixels : List Pixel) :
    (png_to_bruh none w h pixels).written = none ∧
    (png_to_bruh none w h pixels).printedNotFound = true ∧
    (png_to_bruh none w h pixels).resultOk = true :=
  ⟨rfl, rfl, rfl⟩


/-- Claim C1 as stated is refuted by the 65536 x 65536 all-black grid: a valid
pixel grid whose decode-of-encode crashes, because the decoder computes the
buffer size width * height in u32, which wraps to 0. -/
theorem c1_counterexample :
    (List.replicate 4294967296 ((0, 0, 0) : Pixel)).length = 65536 * 65536 ∧
    bruh_to_png (png_to_bruh_bytes 65536 65536 (List.replicate 4294967296 (0, 0, 0))) =
      .error (.crash .indexOutOfBounds) := by
  constructor
  · rw [List.length_replicate]
  · unfold png_to_bruh_bytes
    rw [png_to_bruh_runs_replicate 4294967296 (0, 0, 0) (by norm_num)]
    rw [bruh_to_png_header 65536 65536 _ (by norm_num) (by norm_num)]
    have hmod : 65536 * 65536 % 4294967296 = 0 := by norm_num
    rw [hmod]
    have hrep : (4294967296 - 1) / 255 = 16843008 + 1 := by norm_num
    rw [hrep, List.replicate_succ, List.cons_append]
    have hser : ∀ rest : List Run, serializeRuns ((255, ((0 : Nat), (0 : Nat), (0 : Nat))) :: rest) =
        255 :: 0 :: 0 :: 0 :: serializeRuns rest := fun _ => rfl
    rw [hser]
    have hdl : ∀ rest : List Nat,
        decodeLoop (255 :: 0 :: 0 :: 0 :: rest) (List.replicate 0 (0, 0, 0)) 0 =
          .error (.crash .indexOutOfBounds) :=
      fun _ => rfl
    rw [hdl]

end Bruh
